import Mathlib

set_option autoImplicit false

/-!
Shallow embedding of src/persistent.rs: a persistent (immutable,
structurally shared) cons/nil list.  The Rust type
`pub struct List<T> { priv node : Rc<Node<T>> }` owns one node through a
reference-counted pointer whose derived `Eq`/`Ord` compare the pointed-to
contents, never the pointer; sharing and reference counts are memory
management only and do not affect any observable value, so the embedding
models a handle as the node it owns, keeping the two-level
`List`/`Node` structure of the source.
-/

namespace Persistent

mutual
/-- Embeds `pub struct List<T> { priv node : Rc<Node<T>> }`. -/
inductive PList (T : Type) : Type where
  | mk (node : Node T) : PList T
/-- Embeds `pub enum Node<T> { Nil, Cons(T, List<T>) }`. -/
inductive Node (T : Type) : Type where
  | Nil : Node T
  | Cons : T → PList T → Node T
end

/-- The method `List::node`: `self.node.borrow()`, exposing the node for
pattern matching on Nil vs Cons. -/
def PList.node {T : Type} : PList T → Node T
  | .mk n => n

/-- One call of `Iterator::next` for `&'self List<T>`: on `Nil` it yields
`None`; on `Cons(x, xs)` it advances the cursor to `xs` and yields `x`.
The mutated cursor is returned alongside the yielded element. -/
def PList.next {T : Type} (self : PList T) : Option (T × PList T) :=
  match self.node with
  | .Nil => none
  | .Cons x xs => some (x, xs)

/-- The finite sequence of elements the iterator yields when `next` is
called repeatedly from this handle until it returns `None`. -/
def PList.iterate {T : Type} : PList T → List T
  | .mk .Nil => []
  | .mk (.Cons x xs) => x :: xs.iterate

/-- `List::new(node)`: wraps a node into a list handle (`Rc::new`). -/
def PList.new {T : Type} (node : Node T) : PList T := .mk node

/-- `List::nil()`: the empty list. -/
def PList.nil {T : Type} : PList T := PList.new .Nil

/-- `List::cons(x, xs)`: a list with head `x` and rest `xs`. -/
def PList.cons {T : Type} (x : T) (xs : PList T) : PList T :=
  PList.new (.Cons x xs)

/-- `List::reverse_impl(acc)`: on `Nil` return the accumulator, on
`Cons(x, xs)` recurse on `xs` with `cons(x.clone(), acc)`; cloning a value
is the identity on the modelled value. -/
def PList.reverse_impl {T : Type} : PList T → PList T → PList T
  | .mk .Nil, acc => acc
  | .mk (.Cons x xs), acc => xs.reverse_impl (PList.cons x acc)

/-- `List::reverse()`: `self.reverse_impl(List::nil())`. -/
def PList.reverse {T : Type} (self : PList T) : PList T :=
  self.reverse_impl PList.nil

/-- The loop of `Container::len`: `for _ in self.iter() { result += 1 }`,
i.e. repeated `next` calls adding one per yielded element, starting from
the current value of `result`. -/
def PList.lenLoop {T : Type} : PList T → Nat → Nat
  | .mk .Nil, result => result
  | .mk (.Cons _ xs), result => xs.lenLoop (result + 1)

/-- `Container::len` for `List<T>`: run the counting loop from 0. -/
def PList.len {T : Type} (self : PList T) : Nat := self.lenLoop 0

/-- `Container::is_empty` for `List<T>`. -/
def PList.is_empty {T : Type} (self : PList T) : Bool :=
  match self.node with
  | .Nil => true
  | .Cons _ _ => false

/-- `Default::default()` for `List<T>`: `List::nil()`. -/
def PList.defaultValue {T : Type} : PList T := PList.nil

/-- `FromIterator::from_iterator`: the input iterator argument is modelled
by the finite sequence of items it will yield (`iter.next()` on `[]` is
`None`; on `a :: rest` it is `Some a`, leaving `rest`).  On `None` return
`nil`, on `Some a` recurse on the remaining iterator and cons `a` in front. -/
def from_iterator {A : Type} : List A → PList A
  | [] => PList.nil
  | a :: rest => PList.cons a (from_iterator rest)

mutual
/-- The derived `Eq` for `List<T>`: `Rc` equality compares the contained
data, so two handles are equal iff their nodes are. -/
def PList.beq {T : Type} [DecidableEq T] : PList T → PList T → Bool
  | .mk a, .mk b => Node.beq a b
/-- The derived `Eq` for `Node<T>`: same variant, and equal fields in
order (`Nil == Nil`; `Cons(x, xs) == Cons(y, ys)` iff `x == y` and
`xs == ys`).  Element equality is the decidable equality of `T`, as for
the value types (`int`) the source instantiates `T` with. -/
def Node.beq {T : Type} [DecidableEq T] : Node T → Node T → Bool
  | .Nil, .Nil => true
  | .Cons x xs, .Cons y ys => decide (x = y) && PList.beq xs ys
  | _, _ => false
end

mutual
/-- The derived `TotalOrd::cmp` for `List<T>`: `Rc` ordering compares the
contained data, so two handles compare as their nodes do. -/
def PList.cmp {T : Type} [LinearOrder T] : PList T → PList T → Ordering
  | .mk a, .mk b => Node.cmp a b
/-- The derived `TotalOrd::cmp` for `Node<T>`: variants compare by
declaration order (`Nil` before `Cons`), and two `Cons` nodes compare
lexicographically by their fields: first the head values, then, if those
are equal, the tail lists. -/
def Node.cmp {T : Type} [LinearOrder T] : Node T → Node T → Ordering
  | .Nil, .Nil => .eq
  | .Nil, .Cons _ _ => .lt
  | .Cons _ _, .Nil => .gt
  | .Cons x xs, .Cons y ys =>
    match compare x y with
    | .eq => PList.cmp xs ys
    | .lt => .lt
    | .gt => .gt
end

/-- Number of nested activation frames a call of `from_iterator` needs on
a given input sequence: one frame for the call itself, and the `Some`
branch makes a nested recursive call (which is not even in tail position:
its result is consed under `a`) before the frame can return. -/
def from_iterator_depth {A : Type} : List A → Nat
  | [] => 1
  | _ :: rest => 1 + from_iterator_depth rest

/-- Number of nested activation frames of `reverse_impl` when called on a
list: the `Cons` branch calls `reverse_impl` recursively, and Rust does
not guarantee tail-call elimination, so each recursive call occupies a
fresh stack frame. -/
def reverse_impl_depth {T : Type} : PList T → Nat
  | .mk .Nil => 1
  | .mk (.Cons _ xs) => 1 + reverse_impl_depth xs

mutual
/-- Modelled from the spec (section 4.1, `length`): the count of
`Pair`/`Cons` nodes from this handle's node to the terminal `Empty`.
Stated from the spec's words, to be compared with the source's
loop-based `PList.len`. -/
def PList.specPairCount {T : Type} : PList T → Nat
  | .mk n => Node.specPairCount n
/-- Modelled from the spec: `Empty` contributes no node; a `Pair`
contributes itself plus the count of its tail. -/
def Node.specPairCount {T : Type} : Node T → Nat
  | .Nil => 0
  | .Cons _ xs => PList.specPairCount xs + 1
end

/-! Helper lemmas.  The pair `from_iterator` / `iterate` is an
isomorphism between `PList T` and Lean lists; most facts about the
operations are proved on sequences and transported through it. -/

@[simp]
theorem iterate_mk_nil {T : Type} : (PList.mk Node.Nil : PList T).iterate = [] := rfl

@[simp]
theorem iterate_mk_cons {T : Type} (x : T) (xs : PList T) :
    (PList.mk (Node.Cons x xs)).iterate = x :: xs.iterate := rfl

@[simp]
theorem iterate_nil {T : Type} : (PList.nil : PList T).iterate = [] := rfl

@[simp]
theorem iterate_cons {T : Type} (x : T) (xs : PList T) :
    (PList.cons x xs).iterate = x :: xs.iterate := rfl

mutual
theorem from_iterator_iterate {T : Type} (l : PList T) :
    from_iterator l.iterate = l := by
  cases l with
  | mk n => exact from_iterator_iterate_node n
theorem from_iterator_iterate_node {T : Type} (n : Node T) :
    from_iterator (PList.iterate (.mk n)) = .mk n := by
  cases n with
  | Nil => rfl
  | Cons x xs =>
    have ih := from_iterator_iterate xs
    simp [from_iterator, ih, PList.cons, PList.new]
end

theorem iterate_from_iterator {A : Type} (s : List A) :
    (from_iterator s).iterate = s := by
  induction s with
  | nil => rfl
  | cons a rest ih => simp [from_iterator, ih]

theorem iterate_injective {T : Type} {a b : PList T}
    (h : a.iterate = b.iterate) : a = b := by
  have ha := from_iterator_iterate a
  have hb := from_iterator_iterate b
  rw [← ha, ← hb, h]

theorem beq_from_iterator {A : Type} [DecidableEq A] (s t : List A) :
    PList.beq (from_iterator s) (from_iterator t) = true ↔ s = t := by
  induction s generalizing t with
  | nil =>
    cases t with
    | nil => simp [from_iterator, PList.beq, Node.beq, PList.nil, PList.new]
    | cons b t2 =>
      simp [from_iterator, PList.beq, Node.beq, PList.nil, PList.cons, PList.new]
  | cons a s2 ih =>
    cases t with
    | nil =>
      simp [from_iterator, PList.beq, Node.beq, PList.nil, PList.cons, PList.new]
    | cons b t2 =>
      simp [from_iterator, PList.beq, Node.beq, PList.cons, PList.new, ih]

theorem beq_iff_eq {T : Type} [DecidableEq T] (a b : PList T) :
    PList.beq a b = true ↔ a = b := by
  constructor
  · intro h
    have h2 : PList.beq (from_iterator a.iterate) (from_iterator b.iterate) = true := by
      rw [from_iterator_iterate, from_iterator_iterate]; exact h
    exact iterate_injective ((beq_from_iterator a.iterate b.iterate).mp h2)
  · rintro rfl
    have h2 := (beq_from_iterator a.iterate a.iterate).mpr rfl
    rwa [from_iterator_iterate] at h2

theorem beq_refl {T : Type} [DecidableEq T] (a : PList T) : PList.beq a a = true :=
  (beq_iff_eq a a).mpr rfl

theorem beq_symm {T : Type} [DecidableEq T] (a b : PList T) :
    PList.beq a b = PList.beq b a := by
  cases hab : PList.beq a b
  · cases hba : PList.beq b a
    · rfl
    · have hba2 : b = a := (beq_iff_eq b a).mp hba
      rw [hba2, beq_refl a] at hab
      simp at hab
  · have hab2 : a = b := (beq_iff_eq a b).mp hab
    rw [hab2, beq_refl b]

theorem iterate_reverse_impl_from_iterator {A : Type} (s : List A) (acc : PList A) :
    (PList.reverse_impl (from_iterator s) acc).iterate = s.reverse ++ acc.iterate := by
  induction s generalizing acc with
  | nil => simp [from_iterator, PList.reverse_impl, PList.nil, PList.new]
  | cons a s2 ih =>
    show (PList.reverse_impl (PList.mk (Node.Cons a (from_iterator s2))) acc).iterate = _
    rw [PList.reverse_impl, ih]
    simp

theorem iterate_reverse_impl {T : Type} (l acc : PList T) :
    (l.reverse_impl acc).iterate = l.iterate.reverse ++ acc.iterate := by
  have h := iterate_reverse_impl_from_iterator l.iterate acc
  rwa [from_iterator_iterate] at h

theorem iterate_reverse {T : Type} (l : PList T) :
    (PList.reverse l).iterate = l.iterate.reverse := by
  rw [PList.reverse, iterate_reverse_impl]
  simp

theorem reverse_reverse {T : Type} (l : PList T) : l.reverse.reverse = l := by
  apply iterate_injective
  rw [iterate_reverse, iterate_reverse, List.reverse_reverse]

theorem lenLoop_from_iterator {A : Type} (s : List A) (r : Nat) :
    (from_iterator s).lenLoop r = r + s.length := by
  induction s generalizing r with
  | nil => simp [from_iterator, PList.nil, PList.new, PList.lenLoop]
  | cons a s2 ih =>
    show (PList.mk (Node.Cons a (from_iterator s2))).lenLoop r = _
    rw [PList.lenLoop, ih, List.length_cons]
    omega

theorem len_eq_iterate_length {T : Type} (l : PList T) :
    l.len = l.iterate.length := by
  have h := lenLoop_from_iterator l.iterate 0
  rw [from_iterator_iterate] at h
  simpa [PList.len] using h

theorem specPairCount_from_iterator {A : Type} (s : List A) :
    (from_iterator s).specPairCount = s.length := by
  induction s with
  | nil => rfl
  | cons a s2 ih =>
    simp [from_iterator, PList.cons, PList.new, PList.specPairCount,
      Node.specPairCount, ih]

theorem specPairCount_eq_iterate_length {T : Type} (l : PList T) :
    l.specPairCount = l.iterate.length := by
  have h := specPairCount_from_iterator l.iterate
  rwa [from_iterator_iterate] at h

theorem from_iterator_depth_eq {A : Type} (s : List A) :
    from_iterator_depth s = s.length + 1 := by
  induction s with
  | nil => rfl
  | cons a s2 ih => simp [from_iterator_depth, ih]; omega

theorem reverse_impl_depth_from_iterator {A : Type} (s : List A) :
    reverse_impl_depth (from_iterator s) = s.length + 1 := by
  induction s with
  | nil => rfl
  | cons a s2 ih =>
    show reverse_impl_depth (PList.mk (Node.Cons a (from_iterator s2))) = _
    rw [reverse_impl_depth, ih, List.length_cons]
    omega

theorem reverse_impl_depth_eq {T : Type} (l : PList T) :
    reverse_impl_depth l = l.iterate.length + 1 := by
  have h := reverse_impl_depth_from_iterator l.iterate
  rwa [from_iterator_iterate] at h

theorem cmp_from_iterator_lt_iff {A : Type} [LinearOrder A] (s t : List A) :
    PList.cmp (from_iterator s) (from_iterator t) = .lt ↔
      List.Lex (fun a b => a < b) s t := by
  induction s generalizing t with
  | nil =>
    cases t with
    | nil =>
      refine iff_of_false ?_ (List.Lex.not_nil_right _ _)
      show Ordering.eq = Ordering.lt → False
      simp
    | cons b t2 => exact iff_of_true rfl List.Lex.nil
  | cons a s2 ih =>
    cases t with
    | nil =>
      refine iff_of_false ?_ (List.Lex.not_nil_right _ _)
      show Ordering.gt = Ordering.lt → False
      simp
    | cons b t2 =>
      show Node.cmp (Node.Cons a (from_iterator s2)) (Node.Cons b (from_iterator t2)) =
          Ordering.lt ↔ _
      rw [Node.cmp]
      rcases lt_trichotomy a b with hab | hab | hab
      · rw [compare_lt_iff_lt.mpr hab]
        exact iff_of_true rfl (List.Lex.rel hab)
      · subst hab
        rw [compare_eq_iff_eq.mpr rfl]
        constructor
        · intro h
          exact List.Lex.cons ((ih t2).mp h)
        · intro h
          cases h with
          | cons h2 => exact (ih t2).mpr h2
          | rel h2 => exact absurd h2 (lt_irrefl a)
      · rw [compare_gt_iff_gt.mpr hab]
        constructor
        · intro h
          simp at h
        · intro h
          cases h with
          | cons h2 => exact absurd hab (lt_irrefl a)
          | rel h2 => exact absurd hab (not_lt_of_gt h2)
theorem cmp_lt_iff_lex {T : Type} [LinearOrder T] (a b : PList T) :
    PList.cmp a b = .lt ↔ List.Lex (fun u v => u < v) a.iterate b.iterate := by
  have h := cmp_from_iterator_lt_iff a.iterate b.iterate
  rwa [from_iterator_iterate, from_iterator_iterate] at h

theorem cmp_cons_lt_head {T : Type} [LinearOrder T] {x y : T} (xs ys : PList T)
    (h : x < y) : PList.cmp (PList.cons x xs) (PList.cons y ys) = .lt := by
  show Node.cmp (Node.Cons x xs) (Node.Cons y ys) = .lt
  rw [Node.cmp, compare_lt_iff_lt.mpr h]

theorem cmp_cons_same_head {T : Type} [LinearOrder T] (x : T) (xs ys : PList T) :
    PList.cmp (PList.cons x xs) (PList.cons x ys) = PList.cmp xs ys := by
  show Node.cmp (Node.Cons x xs) (Node.Cons x ys) = _
  rw [Node.cmp, compare_eq_iff_eq.mpr rfl]

/-! The claims. -/

/-- Claim C1: reversal is an involution up to the structural equality
used by the derived Eq: for every list L, reversing twice yields a list
that compares equal to L. -/
theorem reverse_involution {T : Type} [DecidableEq T] (l : PList T) :
    PList.beq (l.reverse.reverse) l = true :=
  (beq_iff_eq _ _).mpr (reverse_reverse l)

/-- Claim C1 checked at the concrete list [1, 2]. -/
theorem reverse_involution_witness :
    PList.beq ((PList.cons 1 (PList.cons 2 PList.nil)).reverse.reverse)
      (PList.cons 1 (PList.cons 2 (PList.nil : PList Nat))) = true :=
  reverse_involution (PList.cons 1 (PList.cons 2 PList.nil))

/-- Claim C2: from_iterator builds a list that iterates to exactly the
input items in their original order; the first input item becomes the
head, and the empty sequence yields the empty list. -/
theorem from_iterator_order {A : Type} (s : List A) :
    (from_iterator s).iterate = s ∧
      from_iterator ([] : List A) = PList.nil ∧
      ∀ (a : A) (rest : List A),
        (from_iterator (a :: rest)).node = Node.Cons a (from_iterator rest) :=
  ⟨iterate_from_iterator s, rfl, fun _ _ => rfl⟩

/-- Claim C2 checked at the sequence [1, 3, 2] used by the source's test. -/
theorem from_iterator_order_witness :
    (from_iterator [1, 3, 2]).iterate = [(1 : Nat), 3, 2] :=
  (from_iterator_order [(1 : Nat), 3, 2]).1

/-- Claim C3 fails as stated: sequence construction is recursive and its
call-stack depth grows with the input, so it is not bounded by any
constant over all finite inputs. -/
theorem from_iterator_depth_unbounded :
    ¬ ∃ c : Nat, ∀ s : List Nat, from_iterator_depth s ≤ c := by
  rintro ⟨c, hc⟩
  have h := hc (List.replicate (c + 1) 0)
  rw [from_iterator_depth_eq, List.length_replicate] at h
  omega

/-- Claim C3 amended: sequence construction (from_iterator) and reversal
(reverse_impl) are recursive, not iterative; each needs a call-stack
depth of one frame more than the length of its input, proportional to the
input length rather than bounded by a constant.  (Only traversal — the
iterator step and the len loop — is iterative.) -/
theorem construction_and_reversal_depth_linear {T : Type} (s : List T)
    (l : PList T) :
    from_iterator_depth s = s.length + 1 ∧
      reverse_impl_depth l = PList.len l + 1 :=
  ⟨from_iterator_depth_eq s, by rw [reverse_impl_depth_eq, len_eq_iterate_length]⟩

/-- Claim C3 amended, checked at the singleton inputs [0]. -/
theorem construction_and_reversal_depth_linear_witness :
    from_iterator_depth [(0 : Nat)] = 2 ∧
      reverse_impl_depth (PList.cons 0 (PList.nil : PList Nat)) = 2 := by
  have h := construction_and_reversal_depth_linear [(0 : Nat)]
    (PList.cons 0 (PList.nil : PList Nat))
  exact ⟨h.1, h.2⟩

/-- Claim C4: the ordering is lexicographic: strict comparison agrees
with lexicographic ordering of the yielded sequences; Empty/nil is
strictly below every non-empty list; two Cons nodes with equal heads
compare as their tails; a smaller head decides regardless of the tails;
and in particular cons x t sorts strictly before cons y t when x < y. -/
theorem cmp_lexicographic {T : Type} [LinearOrder T] :
    (∀ a b : PList T, PList.cmp a b = .lt ↔
        List.Lex (fun u v => u < v) a.iterate b.iterate) ∧
      (∀ (x : T) (xs : PList T), PList.cmp PList.nil (PList.cons x xs) = .lt) ∧
      (∀ (x : T) (xs ys : PList T),
        PList.cmp (PList.cons x xs) (PList.cons x ys) = PList.cmp xs ys) ∧
      (∀ (x y : T) (xs ys : PList T), x < y →
        PList.cmp (PList.cons x xs) (PList.cons y ys) = .lt) ∧
      (∀ (x y : T) (t : PList T), x < y →
        PList.cmp (PList.cons x t) (PList.cons y t) = .lt) :=
  ⟨cmp_lt_iff_lex, fun _ _ => rfl, cmp_cons_same_head,
    fun _ _ xs ys h => cmp_cons_lt_head xs ys h,
    fun _ _ t h => cmp_cons_lt_head t t h⟩

/-- Claim C4 checked at the test's lists: cons 2 p1 sorts strictly before
cons 3 p1 for the shared tail p1 = [1]. -/
theorem cmp_lexicographic_witness :
    PList.cmp (PList.cons 2 (PList.cons 1 PList.nil))
      (PList.cons 3 (PList.cons 1 (PList.nil : PList Nat))) = .lt :=
  cmp_lexicographic.2.2.2.2 2 3 (PList.cons 1 PList.nil) (by decide)

/-- Claim C5: structural equality is reflexive, symmetric and transitive;
it is decided by contents and shape, so lists built by the same
construction from equal values compare equal; and two lists of different
lengths are never equal. -/
theorem eq_equivalence {T : Type} [DecidableEq T] :
    (∀ l : PList T, PList.beq l l = true) ∧
      (∀ a b : PList T, PList.beq a b = PList.beq b a) ∧
      (∀ a b c : PList T, PList.beq a b = true → PList.beq b c = true →
        PList.beq a c = true) ∧
      (∀ (x y : T) (xs ys : PList T), x = y → PList.beq xs ys = true →
        PList.beq (PList.cons x xs) (PList.cons y ys) = true) ∧
      (∀ a b : PList T, PList.len a ≠ PList.len b → PList.beq a b = false) := by
  refine ⟨beq_refl, beq_symm, ?_, ?_, ?_⟩
  · intro a b c hab hbc
    exact (beq_iff_eq a c).mpr
      (((beq_iff_eq a b).mp hab).trans ((beq_iff_eq b c).mp hbc))
  · intro x y xs ys hxy hxs
    subst hxy
    exact (beq_iff_eq _ _).mpr (congrArg (PList.cons x) ((beq_iff_eq xs ys).mp hxs))
  · intro a b hlen
    cases hb : PList.beq a b
    · rfl
    · exact absurd (congrArg PList.len ((beq_iff_eq a b).mp hb)) hlen

/-- Claim C5 applied concretely: transitivity through three independently
written copies of the list [2, 1]. -/
theorem eq_equivalence_witness :
    PList.beq (PList.cons 2 (PList.cons 1 PList.nil))
      (PList.cons 2 (PList.cons 1 (PList.nil : PList Nat))) = true :=
  eq_equivalence.2.2.1 (PList.cons 2 (PList.cons 1 PList.nil))
    (PList.cons 2 (PList.cons 1 PList.nil))
    (PList.cons 2 (PList.cons 1 PList.nil))
    (eq_equivalence.1 (PList.cons 2 (PList.cons 1 PList.nil)))
    (eq_equivalence.1 (PList.cons 2 (PList.cons 1 PList.nil)))

/-- Claim C6: reverse returns a list holding exactly the same elements in
reverse order, and it equals the accumulator walk that starts from the
empty list and prepends each visited element; the operation is pure, so
the input handle still denotes the unchanged original list afterwards. -/
theorem reverse_spec {T : Type} (l : PList T) :
    (PList.reverse l).iterate = l.iterate.reverse ∧
      PList.reverse l = PList.reverse_impl l PList.nil :=
  ⟨iterate_reverse l, rfl⟩

/-- Claim C6 checked at [1, 2], whose reverse iterates to [2, 1]. -/
theorem reverse_spec_witness :
    (PList.reverse (PList.cons 1 (PList.cons 2 PList.nil))).iterate =
      [(2 : Nat), 1] :=
  (reverse_spec (PList.cons 1 (PList.cons 2 PList.nil))).1

/-- Claim C7: len returns the number of Cons/Pair nodes between the
list's node and the terminal Empty, and this equals the number of
elements yielded by a full iteration. -/
theorem len_spec {T : Type} (l : PList T) :
    PList.len l = PList.specPairCount l ∧ PList.len l = l.iterate.length :=
  ⟨by rw [len_eq_iterate_length, specPairCount_eq_iterate_length],
    len_eq_iterate_length l⟩

/-- Claim C7 checked at [1, 2]. -/
theorem len_spec_witness :
    PList.len (PList.cons 1 (PList.cons 2 (PList.nil : PList Nat))) = 2 :=
  (len_spec (PList.cons 1 (PList.cons 2 (PList.nil : PList Nat)))).2

/-- Claim C8: decomposition and the iterator step are total: on the empty
list the node accessor returns the explicit Nil case and the iterator
step returns None — values of the return type, never a raised fault — and
on a non-empty list the step yields the head and the remaining tail. -/
theorem decompose_total {T : Type} (l : PList T) :
    (PList.nil : PList T).next = none ∧
      (PList.nil : PList T).node = Node.Nil ∧
      (l.is_empty = true → l.next = none) ∧
      (l.is_empty = false → ∃ (x : T) (xs : PList T), l.next = some (x, xs)) := by
  refine ⟨rfl, rfl, ?_, ?_⟩
  · cases l with
    | mk n =>
      cases n with
      | Nil => intro _; rfl
      | Cons x xs => intro h; simp [PList.is_empty, PList.node] at h
  · cases l with
    | mk n =>
      cases n with
      | Nil => intro h; simp [PList.is_empty, PList.node] at h
      | Cons x xs => intro _; exact ⟨x, xs, rfl⟩

/-- Claim C8 checked at the empty list of Nat. -/
theorem decompose_total_witness :
    (PList.nil : PList Nat).next = none :=
  (decompose_total (PList.nil : PList Nat)).1

/-- Claim C9: cons(v, t) returns a list whose node decomposes as
Cons v t, and the iterator step on it yields v together with exactly the
handle t; t is not consumed or altered — the same tail can keep being
used independently. -/
theorem cons_spec {T : Type} (v : T) (t : PList T) :
    (PList.cons v t).node = Node.Cons v t ∧
      (PList.cons v t).next = some (v, t) :=
  ⟨rfl, rfl⟩

/-- Claim C9 checked at v = 5 and t = [7]. -/
theorem cons_spec_witness :
    (PList.cons 5 (PList.cons 7 PList.nil)).node =
      Node.Cons 5 (PList.cons 7 (PList.nil : PList Nat)) :=
  (cons_spec 5 (PList.cons 7 PList.nil)).1

/-- Claim C10: rebuilding a list from the sequence of elements its own
iteration yields gives a list structurally equal to the original. -/
theorem from_iterator_roundtrip {T : Type} [DecidableEq T] (l : PList T) :
    PList.beq (from_iterator l.iterate) l = true :=
  (beq_iff_eq _ _).mpr (from_iterator_iterate l)

/-- Claim C10 checked at [4, 4, 2]. -/
theorem from_iterator_roundtrip_witness :
    PList.beq
      (from_iterator (PList.cons 4 (PList.cons 4 (PList.cons 2 PList.nil))).iterate)
      (PList.cons 4 (PList.cons 4 (PList.cons 2 (PList.nil : PList Nat)))) = true :=
  from_iterator_roundtrip (PList.cons 4 (PList.cons 4 (PList.cons 2 PList.nil)))

end Persistent
